import Mathlib

/-!
Shallow embedding of the LimitRead library (src/lib.rs): a bounded,
incremental delimiter-scanning primitive over a buffered byte source.

Bytes are modelled as `Nat`; a buffered source is modelled as a script of
responses to `fill_buf` calls: either a chunk of currently available bytes
(an empty chunk signals end-of-source) or an I/O error of a given kind.
`consume n` removes the first `n` bytes of the front chunk; a fully
consumed chunk is removed from the script so the next `fill_buf` sees the
next response, matching a `BufRead` implementation that refills once its
internal buffer is empty.
-/

set_option autoImplicit false

/-- Error kinds distinguished by the library: `interrupted`
(`ErrorKind::Interrupted`, retried transparently), `notFound`
(`ErrorKind::NotFound`, used for the size-exceeded failure), `invalidData`
(`ErrorKind::InvalidData`, text mode only) and any other source failure,
tagged so that distinct errors stay distinct. -/
inductive ErrKind where
  | interrupted : ErrKind
  | notFound : ErrKind
  | invalidData : ErrKind
  | other : Nat → ErrKind
deriving DecidableEq, Repr

/-- One scripted response of the buffered source to a `fill_buf` call. -/
inductive Resp where
  | chunk : List Nat → Resp
  | err : ErrKind → Resp
deriving DecidableEq, Repr

/-- A buffered source: the script of its future `fill_buf` responses. -/
abbrev Source := List Resp

/-- `memchr::memchr`: index of the first occurrence of `delim`. -/
def memchr (delim : Nat) : List Nat → Option Nat
  | [] => none
  | b :: bs => if b = delim then some 0 else (memchr delim bs).map (· + 1)

/-- `read_until` from src/lib.rs: repeatedly pull a chunk, search it for
`delim`; on a hit at local offset `i` check `read + i + 1 > max` (here
`lim`) and either fail with `NotFound` (consuming nothing of this chunk)
or append `available[..=i]`, consume `i+1` and return `Ok (read+i+1)`;
on a miss append the whole chunk, consume it, and loop; an empty chunk
(end of source) returns `Ok read`. Interrupted errors retry the loop, any
other error is returned as is. Returns (result, final source, final
output buffer). -/
def readUntil (delim lim : Nat) : Source → List Nat → Nat → Except ErrKind Nat × Source × List Nat
  | [], buf, read => (Except.ok read, [], buf)
  | Resp.err e :: rest, buf, read =>
      if e = ErrKind.interrupted then readUntil delim lim rest buf read
      else (Except.error e, rest, buf)
  | Resp.chunk bs :: rest, buf, read =>
      match memchr delim bs with
      | some i =>
          if lim < read + i + 1 then
            (Except.error ErrKind.notFound, Resp.chunk bs :: rest, buf)
          else
            (Except.ok (read + i + 1),
              if (bs.drop (i + 1)).isEmpty then rest
              else Resp.chunk (bs.drop (i + 1)) :: rest,
              buf ++ bs.take (i + 1))
      | none =>
          if bs.isEmpty then (Except.ok read, rest, buf)
          else readUntil delim lim rest (buf ++ bs) (read + bs.length)

/-- Lower bound (inclusive) of the range allowed for the first
continuation byte after the leading byte `b`, as enforced by
`std::str::from_utf8` (`0xE0` excludes overlong 3-byte forms, `0xF0`
overlong 4-byte forms). -/
def lo1 (b : Nat) : Nat := if b = 0xE0 then 0xA0 else if b = 0xF0 then 0x90 else 0x80

/-- Upper bound (exclusive) of the range allowed for the first
continuation byte after the leading byte `b` (`0xED` excludes surrogate
code points, `0xF4` code points above U+10FFFF). -/
def hi1 (b : Nat) : Nat := if b = 0xED then 0xA0 else if b = 0xF4 then 0x90 else 0xC0

/-- State-machine UTF-8 validator: `k` continuation bytes are still
pending and the next byte must lie in `[lo, hi)`; at `k = 0` the next
byte is a leading byte classified exactly as `std::str::from_utf8` does
(`0x00..=0x7F` one byte; `0xC2..=0xDF` two; `0xE0..=0xEF` three;
`0xF0..=0xF4` four; everything else invalid). -/
def utf8Run : Nat → Nat → Nat → List Nat → Bool
  | k, _, _, [] => k = 0
  | k, lo, hi, b :: rest =>
      match k with
      | 0 =>
          if b < 0x80 then utf8Run 0 0x80 0xC0 rest
          else if b < 0xC2 then false
          else if b < 0xE0 then utf8Run 1 (lo1 b) (hi1 b) rest
          else if b < 0xF0 then utf8Run 2 (lo1 b) (hi1 b) rest
          else if b < 0xF5 then utf8Run 3 (lo1 b) (hi1 b) rest
          else false
      | k1 + 1 => if lo ≤ b ∧ b < hi then utf8Run k1 0x80 0xC0 rest else false

/-- `std::str::from_utf8(bytes).is_ok()`: the byte list is valid UTF-8. -/
def validUTF8 (bs : List Nat) : Bool := utf8Run 0 0x80 0xC0 bs

/-- `read_line_lim` = `append_to_string(buf, max, |b, m| read_until(self, b'\n', b, m))`
from src/lib.rs. The guard records the prior length `s.length`; after the
scan it validates the newly appended range. If the range is valid UTF-8 the
guard commits (`g.len = g.buf.len()`) and the scan's own result is
returned; if it is invalid, the scan's `Ok` is replaced by an
`InvalidData` error while a scan error is returned unchanged, and in both
of those cases the guard's drop truncates the buffer back to the prior
length (the commit point was never advanced). -/
def readLineLim (lim : Nat) (src : Source) (s : List Nat) : Except ErrKind Nat × Source × List Nat :=
  match readUntil 10 lim src s 0 with
  | (ret, src2, v) =>
      if validUTF8 (v.drop s.length) then (ret, src2, v)
      else
        match ret with
        | Except.ok _ => (Except.error ErrKind.invalidData, src2, s)
        | Except.error e => (Except.error e, src2, s)

/-- Trailing-delimiter trim performed by `Split::next`:
`if buf[buf.len() - 1] == self.delim { buf.pop(); }`. -/
def stripDelim (delim : Nat) (l : List Nat) : List Nat :=
  if l.getLast? = some delim then l.dropLast else l

/-- Trailing-terminator trim performed by `Lines::next`: pop one `'\n'`
if present, then one `'\r'` if present. -/
def stripLine (l : List Nat) : List Nat :=
  if l.getLast? = some 10 then
    if l.dropLast.getLast? = some 13 then l.dropLast.dropLast else l.dropLast
  else l

/-- One step of the `Split` iterator (`Split::next`): a fresh buffer, one
`read_until_lim` scan, `Ok(0) ↦ None`, `Ok(n) ↦ Some(Ok(trimmed))`,
`Err(e) ↦ Some(Err(e))`. Returns the item and the advanced source. -/
def splitNext (delim lim : Nat) (src : Source) : Option (Except ErrKind (List Nat)) × Source :=
  match readUntil delim lim src [] 0 with
  | (Except.ok 0, src2, _) => (none, src2)
  | (Except.ok (_ + 1), src2, buf) => (some (Except.ok (stripDelim delim buf)), src2)
  | (Except.error e, src2, _) => (some (Except.error e), src2)

/-- One step of the `Lines` iterator (`Lines::next`): a fresh string
buffer, one `read_line_lim` call, `Ok(0) ↦ None`,
`Ok(n) ↦ Some(Ok(line trimmed))`, `Err(e) ↦ Some(Err(e))`. -/
def linesNext (lim : Nat) (src : Source) : Option (Except ErrKind (List Nat)) × Source :=
  match readLineLim lim src [] with
  | (Except.ok 0, src2, _) => (none, src2)
  | (Except.ok (_ + 1), src2, s) => (some (Except.ok (stripLine s)), src2)
  | (Except.error e, src2, _) => (some (Except.error e), src2)

theorem memchr_eq_none {d : Nat} : ∀ {bs : List Nat}, memchr d bs = none ↔ d ∉ bs := by
  intro bs
  induction bs with
  | nil => simp [memchr]
  | cons b tl ih =>
    by_cases hb : b = d
    · simp [memchr, hb]
    · rw [show memchr d (b :: tl) = (memchr d tl).map (· + 1) from by simp [memchr, hb]]
      rw [Option.map_eq_none', ih]
      constructor
      · intro h hmem
        rcases List.mem_cons.mp hmem with h1 | h1
        · exact hb h1.symm
        · exact h h1
      · intro h h1
        exact h (List.mem_cons_of_mem _ h1)

theorem memchr_some_decomp {d : Nat} : ∀ {bs : List Nat} {i : Nat}, memchr d bs = some i →
    i + 1 ≤ bs.length ∧ bs.take (i + 1) = bs.take i ++ [d] := by
  intro bs
  induction bs with
  | nil => intro i h; simp [memchr] at h
  | cons b tl ih =>
    intro i h
    by_cases hb : b = d
    · simp [memchr, hb] at h
      subst h
      subst hb
      simp
    · simp [memchr, hb] at h
      obtain ⟨j, hj, hji⟩ := h
      obtain ⟨h1, h2⟩ := ih hj
      subst hji
      refine ⟨by simpa using Nat.succ_le_succ h1, ?_⟩
      simp [List.take_succ_cons, h2]

theorem readUntil_buf (d lim : Nat) : ∀ (src : Source) (buf : List Nat) (read : Nat),
    readUntil d lim src buf read =
      ((readUntil d lim src [] read).1, (readUntil d lim src [] read).2.1,
        buf ++ (readUntil d lim src [] read).2.2) := by
  intro src
  induction src with
  | nil => intro buf read; simp [readUntil]
  | cons r rest ih =>
    intro buf read
    cases r with
    | err e =>
      by_cases he : e = ErrKind.interrupted
      · have h1 : ∀ (b : List Nat), readUntil d lim (Resp.err e :: rest) b read
            = readUntil d lim rest b read := by
          intro b; simp [readUntil, he]
        rw [h1, h1]
        exact ih buf read
      · simp [readUntil, he]
    | chunk bs =>
      rcases hm : memchr d bs with _ | i
      · by_cases hbs : bs.isEmpty
        · simp [readUntil, hm, hbs]
        · have h1 : ∀ (b : List Nat), readUntil d lim (Resp.chunk bs :: rest) b read
              = readUntil d lim rest (b ++ bs) (read + bs.length) := by
            intro b; simp [readUntil, hm, hbs]
          rw [h1, h1]
          rw [ih (buf ++ bs), ih ([] ++ bs)]
          simp [List.append_assoc]
      · by_cases hlt : lim < read + i + 1
        · simp [readUntil, hm, hlt]
        · simp [readUntil, hm, hlt]

theorem readUntil_len (d lim : Nat) : ∀ (src : Source) (buf : List Nat) (read n : Nat),
    (readUntil d lim src buf read).1 = Except.ok n →
    (readUntil d lim src buf read).2.2.length + read = buf.length + n := by
  intro src
  induction src with
  | nil =>
    intro buf read n h
    simp [readUntil] at h ⊢
    omega
  | cons r rest ih =>
    intro buf read n h
    cases r with
    | err e =>
      by_cases he : e = ErrKind.interrupted
      · have h1 : readUntil d lim (Resp.err e :: rest) buf read
            = readUntil d lim rest buf read := by
          simp [readUntil, he]
        rw [h1] at h ⊢
        exact ih buf read n h
      · simp [readUntil, he] at h
    | chunk bs =>
      rcases hm : memchr d bs with _ | i
      · by_cases hbs : bs.isEmpty
        · simp [readUntil, hm, hbs] at h ⊢
          omega
        · have h1 : readUntil d lim (Resp.chunk bs :: rest) buf read
              = readUntil d lim rest (buf ++ bs) (read + bs.length) := by
            simp [readUntil, hm, hbs]
          rw [h1] at h ⊢
          have h2 := ih (buf ++ bs) (read + bs.length) n h
          simp at h2 ⊢
          omega
      · by_cases hlt : lim < read + i + 1
        · simp [readUntil, hm, hlt] at h
        · have hlen := (memchr_some_decomp hm).1
          simp [readUntil, hm, hlt] at h ⊢
          omega

theorem readUntil_found (d lim : Nat) (bs : List Nat) (rest : Source) (buf : List Nat)
    (read i : Nat) (hm : memchr d bs = some i) (hle : read + i + 1 ≤ lim) :
    readUntil d lim (Resp.chunk bs :: rest) buf read =
      (Except.ok (read + i + 1),
        if (bs.drop (i + 1)).isEmpty then rest else Resp.chunk (bs.drop (i + 1)) :: rest,
        buf ++ bs.take (i + 1)) := by
  have hlt : ¬ (lim < read + i + 1) := by omega
  simp [readUntil, hm, hlt]

theorem readUntil_sizeExceeded (d lim : Nat) (bs : List Nat) (rest : Source) (buf : List Nat)
    (read i : Nat) (hm : memchr d bs = some i) (hgt : lim < read + i + 1) :
    readUntil d lim (Resp.chunk bs :: rest) buf read =
      (Except.error ErrKind.notFound, Resp.chunk bs :: rest, buf) := by
  simp [readUntil, hm, hgt]

theorem readUntil_noDelim (d lim : Nat) : ∀ (chunks : List (List Nat)) (buf : List Nat)
    (read : Nat), (∀ c ∈ chunks, c ≠ []) → d ∉ chunks.flatten →
    readUntil d lim (chunks.map Resp.chunk) buf read =
      (Except.ok (read + chunks.flatten.length), [], buf ++ chunks.flatten) := by
  intro chunks
  induction chunks with
  | nil => intro buf read _ _; simp [readUntil]
  | cons c tl ih =>
    intro buf read hne hnd
    rw [List.flatten_cons] at hnd ⊢
    have hc : d ∉ c := fun h => hnd (List.mem_append_left _ h)
    have htl : d ∉ tl.flatten := fun h => hnd (List.mem_append_right _ h)
    have hcn : memchr d c = none := memchr_eq_none.mpr hc
    have hcne : c ≠ [] := hne c (List.mem_cons_self _ _)
    have hbs : ¬ (c.isEmpty = true) := by simpa [List.isEmpty_iff] using hcne
    have h1 : readUntil d lim (Resp.chunk c :: tl.map Resp.chunk) buf read
        = readUntil d lim (tl.map Resp.chunk) (buf ++ c) (read + c.length) := by
      simp [readUntil, hcn, hbs]
    rw [List.map_cons, h1, ih (buf ++ c) (read + c.length) (fun x hx => hne x (List.mem_cons_of_mem _ hx)) htl]
    simp [List.append_assoc]
    omega

/-- C2: when the scan finds the delimiter in a chunk at local offset `i`
with `total = bytes_read_so_far + i + 1 ≤ max`, it appends exactly the
bytes `[0..=i]` of that chunk to the output buffer, advances the source
cursor by `i+1` (the front chunk loses its first `i+1` bytes), and
returns success with count `total`; with `read = 0` this gives
`count = offset(D)+1` and output `bytes[0..=offset(D)]` for a source
whose first chunk contains the delimiter within the first `max` bytes. -/
theorem C2_found_within_bound (d lim : Nat) (bs : List Nat) (rest : Source) (buf : List Nat)
    (read i : Nat) (hm : memchr d bs = some i) (hle : read + i + 1 ≤ lim) :
    readUntil d lim (Resp.chunk bs :: rest) buf read =
      (Except.ok (read + i + 1),
        if (bs.drop (i + 1)).isEmpty then rest else Resp.chunk (bs.drop (i + 1)) :: rest,
        buf ++ bs.take (i + 1)) :=
  readUntil_found d lim bs rest buf read i hm hle

theorem C2_witness :
    memchr 59 [1, 1, 59, 2] = some 2 ∧ 0 + 2 + 1 ≤ 5 ∧
    readUntil 59 5 [Resp.chunk [1, 1, 59, 2]] [] 0
      = (Except.ok 3, [Resp.chunk [2]], [1, 1, 59]) :=
  ⟨rfl, by omega, by
    have h := C2_found_within_bound 59 5 [1, 1, 59, 2] [] [] 0 2 rfl (by omega)
    simpa using h⟩

/-- C3: when the scan finds the delimiter at local offset `i` in a chunk
with `total = bytes_read_so_far + i + 1 > max`, it fails with the
size-exceeded condition, reported as `ErrorKind::NotFound` (the same
signal as "delimiter not found"); no bytes of the matching chunk are
appended to the output buffer, and the source still holds the whole
matching chunk (the cursor was not advanced past its matched portion). -/
theorem C3_size_exceeded (d lim : Nat) (bs : List Nat) (rest : Source) (buf : List Nat)
    (read i : Nat) (hm : memchr d bs = some i) (hgt : lim < read + i + 1) :
    readUntil d lim (Resp.chunk bs :: rest) buf read =
      (Except.error ErrKind.notFound, Resp.chunk bs :: rest, buf) :=
  readUntil_sizeExceeded d lim bs rest buf read i hm hgt

theorem C3_witness :
    memchr 59 [1, 1, 59, 2] = some 2 ∧ 2 < 0 + 2 + 1 ∧
    readUntil 59 2 [Resp.chunk [1, 1, 59, 2]] [] 0
      = (Except.error ErrKind.notFound, [Resp.chunk [1, 1, 59, 2]], []) :=
  ⟨rfl, by omega, C3_size_exceeded 59 2 [1, 1, 59, 2] [] [] 0 2 rfl (by omega)⟩

/-- C4: on a finite source (a list of nonempty chunks followed by end of
source) in which the delimiter never occurs, the scan succeeds with count
equal to the full source length and appends the entire source content,
for every value of `max`: the bound is never checked on the
delimiter-absent path. -/
theorem C4_no_delimiter (d lim : Nat) (chunks : List (List Nat)) (buf : List Nat) (read : Nat)
    (hne : ∀ c ∈ chunks, c ≠ []) (hnd : d ∉ chunks.flatten) :
    readUntil d lim (chunks.map Resp.chunk) buf read =
      (Except.ok (read + chunks.flatten.length), [], buf ++ chunks.flatten) :=
  readUntil_noDelim d lim chunks buf read hne hnd

theorem C4_witness :
    (∀ c ∈ [[1, 2], [3]], c ≠ ([] : List Nat)) ∧ 9 ∉ [[1, 2], [3]].flatten ∧
    readUntil 9 0 [Resp.chunk [1, 2], Resp.chunk [3]] [] 0
      = (Except.ok 3, [], [1, 2, 3]) :=
  ⟨by decide, by decide, by
    have h := C4_no_delimiter 9 0 [[1, 2], [3]] [] 0 (by decide) (by decide)
    simpa using h⟩

/-- C7: for every byte-mode call and every outcome, the bytes present in
the output buffer before the call are unchanged after the call: the final
buffer is the initial buffer followed by the appended bytes (which do not
depend on the initial buffer), so its first `buf.length` bytes are
exactly `buf`. -/
theorem C7_frame (d lim : Nat) (src : Source) (buf : List Nat) (read : Nat) :
    (readUntil d lim src buf read).2.2 = buf ++ (readUntil d lim src [] read).2.2 ∧
    (readUntil d lim src buf read).2.2.take buf.length = buf := by
  have h := readUntil_buf d lim src buf read
  constructor
  · rw [h]
  · rw [h]
    exact List.take_left buf _

/-- C8: the max bound is compared against the cumulative byte count of
the current call only (the counter restarts at zero on every scan,
including each iterator step): on the source of ten bytes of value 1 with
`;` (59) at indices 3 and 8, the byte-record sequence with max 4 yields a
first item that succeeds with the delimiter trimmed, and the second step,
run on the source state left by the first, fails with the size-exceeded
error (`NotFound`). -/
theorem C8_counter_restarts :
    splitNext 59 4 [Resp.chunk [1, 1, 1, 59, 1, 1, 1, 1, 59, 1]]
      = (some (Except.ok [1, 1, 1]), [Resp.chunk [1, 1, 1, 1, 59, 1]]) ∧
    splitNext 59 4 ((splitNext 59 4 [Resp.chunk [1, 1, 1, 59, 1, 1, 1, 1, 59, 1]]).2)
      = (some (Except.error ErrKind.notFound), [Resp.chunk [1, 1, 1, 1, 59, 1]]) :=
  ⟨rfl, rfl⟩

/-- C9: a successful scan returning `Ok n` has appended exactly `n` bytes
to its (initially empty) output buffer, so when `n > 0` the buffer handed
to `Split::next` is nonempty and the access `buf[buf.len() - 1]` is in
bounds and cannot panic. -/
theorem C9_count_is_appended_length (d lim : Nat) (src : Source) (n : Nat)
    (h : (readUntil d lim src [] 0).1 = Except.ok n) :
    (readUntil d lim src [] 0).2.2.length = n ∧
    (0 < n → (readUntil d lim src [] 0).2.2 ≠ []) := by
  have h1 := readUntil_len d lim src [] 0 n h
  simp at h1
  refine ⟨h1, fun hn hnil => ?_⟩
  rw [hnil] at h1
  simp at h1
  omega

theorem C9_witness :
    (readUntil 10 5 [Resp.chunk [1, 10]] [] 0).1 = Except.ok 2 ∧
    (readUntil 10 5 [Resp.chunk [1, 10]] [] 0).2.2.length = 2 ∧
    (readUntil 10 5 [Resp.chunk [1, 10]] [] 0).2.2 ≠ [] := by
  have h := C9_count_is_appended_length 10 5 [Resp.chunk [1, 10]] 2 rfl
  exact ⟨rfl, h.1, h.2 (by omega)⟩

theorem utf8Run_zero_state (lo hi lo2 hi2 : Nat) : ∀ (bs : List Nat),
    utf8Run 0 lo hi bs = utf8Run 0 lo2 hi2 bs := fun bs =>
  match bs with
  | [] => rfl
  | _ :: _ => rfl

theorem lo1_ge (b : Nat) : 0x80 ≤ lo1 b := by
  unfold lo1
  split_ifs <;> omega

theorem utf8Run_append : ∀ (a : List Nat) (k lo hi : Nat) (b : List Nat),
    utf8Run k lo hi a = true → utf8Run 0 0x80 0xC0 b = true →
    utf8Run k lo hi (a ++ b) = true := by
  intro a
  induction a with
  | nil =>
    intro k lo hi b ha hb
    have hk : k = 0 := by simpa [utf8Run] using ha
    subst hk
    simpa [utf8Run_zero_state lo hi 0x80 0xC0 b] using hb
  | cons x a1 ih =>
    intro k lo hi b ha hb
    rcases k with _ | k1
    · by_cases h1 : x < 0x80
      · simp only [List.cons_append, utf8Run, h1, if_true] at ha ⊢
        exact ih 0 0x80 0xC0 b ha hb
      by_cases h2 : x < 0xC2
      · simp [utf8Run, h1, h2] at ha
      by_cases h3 : x < 0xE0
      · simp only [List.cons_append, utf8Run, h1, h2, h3, if_true, if_false] at ha ⊢
        exact ih 1 (lo1 x) (hi1 x) b ha hb
      by_cases h4 : x < 0xF0
      · simp only [List.cons_append, utf8Run, h1, h2, h3, h4, if_true, if_false] at ha ⊢
        exact ih 2 (lo1 x) (hi1 x) b ha hb
      by_cases h5 : x < 0xF5
      · simp only [List.cons_append, utf8Run, h1, h2, h3, h4, h5, if_true, if_false] at ha ⊢
        exact ih 3 (lo1 x) (hi1 x) b ha hb
      · simp [utf8Run, h1, h2, h3, h4, h5] at ha
    · by_cases hr : lo ≤ x ∧ x < hi
      · simp only [List.cons_append, utf8Run, hr, if_true] at ha ⊢
        exact ih k1 0x80 0xC0 b ha hb
      · simp [utf8Run, hr] at ha

theorem utf8Run_split (bb : Nat) (hbb : bb < 0x80) : ∀ (u : List Nat) (k lo hi : Nat)
    (v : List Nat), 0x80 ≤ lo → utf8Run k lo hi (u ++ bb :: v) = true →
    utf8Run k lo hi (u ++ [bb]) = true ∧ utf8Run 0 0x80 0xC0 v = true := by
  intro u
  induction u with
  | nil =>
    intro k lo hi v hlo h
    rcases k with _ | k1
    · simp only [List.nil_append, utf8Run, hbb, if_true] at h ⊢
      exact ⟨by simp [utf8Run], h⟩
    · have hr : ¬ (lo ≤ bb ∧ bb < hi) := fun hc => by omega
      simp [utf8Run, hr] at h
  | cons x u1 ih =>
    intro k lo hi v hlo h
    rcases k with _ | k1
    · by_cases h1 : x < 0x80
      · simp only [List.cons_append, utf8Run, h1, if_true] at h ⊢
        exact ih 0 0x80 0xC0 v (by omega) h
      by_cases h2 : x < 0xC2
      · simp [utf8Run, h1, h2] at h
      by_cases h3 : x < 0xE0
      · simp only [List.cons_append, utf8Run, h1, h2, h3, if_true, if_false] at h ⊢
        exact ih 1 (lo1 x) (hi1 x) v (lo1_ge x) h
      by_cases h4 : x < 0xF0
      · simp only [List.cons_append, utf8Run, h1, h2, h3, h4, if_true, if_false] at h ⊢
        exact ih 2 (lo1 x) (hi1 x) v (lo1_ge x) h
      by_cases h5 : x < 0xF5
      · simp only [List.cons_append, utf8Run, h1, h2, h3, h4, h5, if_true, if_false] at h ⊢
        exact ih 3 (lo1 x) (hi1 x) v (lo1_ge x) h
      · simp [utf8Run, h1, h2, h3, h4, h5] at h
    · by_cases hr : lo ≤ x ∧ x < hi
      · simp only [List.cons_append, utf8Run, hr, if_true] at h ⊢
        exact ih k1 0x80 0xC0 v (by omega) h
      · simp [utf8Run, hr] at h

theorem validUTF8_append {a b : List Nat} (ha : validUTF8 a = true) (hb : validUTF8 b = true) :
    validUTF8 (a ++ b) = true :=
  utf8Run_append a 0 0x80 0xC0 b ha hb

theorem validUTF8_split_ascii {u v : List Nat} {bb : Nat} (hbb : bb < 0x80)
    (h : validUTF8 (u ++ bb :: v) = true) :
    validUTF8 (u ++ [bb]) = true ∧ validUTF8 v = true :=
  utf8Run_split bb hbb u 0 0x80 0xC0 v (by omega) h

/-- C1 (amended): in a text-mode call whose inner scan fails and whose
appended bytes are not valid UTF-8, the scan's original error is returned
unchanged, but the partially written bytes ARE rolled back: the commit
point is only advanced when the UTF-8 check passes, so the guard's drop
resets the buffer to its pre-call content. -/
theorem C1_scan_error_invalid_rollback (lim : Nat) (src : Source) (s : List Nat) (e : ErrKind)
    (hr : (readUntil 10 lim src s 0).1 = Except.error e)
    (hv : validUTF8 ((readUntil 10 lim src s 0).2.2.drop s.length) = false) :
    readLineLim lim src s = (Except.error e, (readUntil 10 lim src s 0).2.1, s) := by
  rcases h : readUntil 10 lim src s 0 with ⟨ret, src2, v⟩
  rw [h] at hr hv
  simp only at hr hv
  subst hr
  unfold readLineLim
  rw [h]
  simp [hv]

theorem C1_witness :
    (readUntil 10 10 [Resp.chunk [0xFF], Resp.err (ErrKind.other 7)] [] 0).1
      = Except.error (ErrKind.other 7) ∧
    validUTF8 ((readUntil 10 10 [Resp.chunk [0xFF], Resp.err (ErrKind.other 7)] [] 0).2.2.drop
      (List.length ([] : List Nat))) = false ∧
    readLineLim 10 [Resp.chunk [0xFF], Resp.err (ErrKind.other 7)] []
      = (Except.error (ErrKind.other 7), [], []) :=
  ⟨rfl, rfl, by
    have h := C1_scan_error_invalid_rollback 10 [Resp.chunk [0xFF], Resp.err (ErrKind.other 7)]
      [] (ErrKind.other 7) rfl rfl
    exact h⟩

/-- C1 counterexample to the claim as stated: on the source that delivers
the invalid byte `0xFF` and then a non-interrupted error, the scan
appends `[0xFF]` (not valid UTF-8) and fails; `read_line_lim` returns the
scan's original error, but the buffer does NOT retain the appended byte:
it is reset to its pre-call (empty) content. -/
theorem C1_counterexample :
    (readUntil 10 10 [Resp.chunk [0xFF], Resp.err (ErrKind.other 7)] [] 0).2.2 = [0xFF] ∧
    validUTF8 [0xFF] = false ∧
    readLineLim 10 [Resp.chunk [0xFF], Resp.err (ErrKind.other 7)] []
      = (Except.error (ErrKind.other 7), [], []) ∧
    (readLineLim 10 [Resp.chunk [0xFF], Resp.err (ErrKind.other 7)] []).2.2 ≠ [0xFF] :=
  ⟨rfl, rfl, rfl, by decide⟩

theorem readLineLim_commit (lim : Nat) (src : Source) (s : List Nat)
    (hv : validUTF8 ((readUntil 10 lim src s 0).2.2.drop s.length) = true) :
    readLineLim lim src s = readUntil 10 lim src s 0 := by
  rcases h : readUntil 10 lim src s 0 with ⟨ret, src2, v⟩
  rw [h] at hv
  simp only at hv
  unfold readLineLim
  rw [h]
  simp [hv]

theorem readLineLim_invalid_ok (lim : Nat) (src : Source) (s : List Nat) (n : Nat)
    (hok : (readUntil 10 lim src s 0).1 = Except.ok n)
    (hv : validUTF8 ((readUntil 10 lim src s 0).2.2.drop s.length) = false) :
    readLineLim lim src s
      = (Except.error ErrKind.invalidData, (readUntil 10 lim src s 0).2.1, s) := by
  rcases h : readUntil 10 lim src s 0 with ⟨ret, src2, v⟩
  rw [h] at hok hv
  simp only at hok hv
  subst hok
  unfold readLineLim
  rw [h]
  simp [hv]

theorem readLineLim_invalid_err (lim : Nat) (src : Source) (s : List Nat) (e : ErrKind)
    (hr : (readUntil 10 lim src s 0).1 = Except.error e)
    (hv : validUTF8 ((readUntil 10 lim src s 0).2.2.drop s.length) = false) :
    readLineLim lim src s = (Except.error e, (readUntil 10 lim src s 0).2.1, s) := by
  rcases h : readUntil 10 lim src s 0 with ⟨ret, src2, v⟩
  rw [h] at hr hv
  simp only at hr hv
  subst hr
  unfold readLineLim
  rw [h]
  simp [hv]

/-- C5: in text mode the buffer's observable content is valid UTF-8 on
every exit: it equals the full prior content (rollback) or the prior
content plus a validated appended range (commit); and when the scan
succeeds but the appended bytes are invalid, the call fails with
`InvalidData` and the buffer equals its pre-call state. -/
theorem C5_text_buffer_always_valid (lim : Nat) (src : Source) (s : List Nat)
    (hs : validUTF8 s = true) :
    validUTF8 (readLineLim lim src s).2.2 = true ∧
    ((readLineLim lim src s).2.2 = s ∨
      ∃ app, (readLineLim lim src s).2.2 = s ++ app ∧ validUTF8 app = true) ∧
    (∀ n, (readUntil 10 lim src s 0).1 = Except.ok n →
      validUTF8 ((readUntil 10 lim src s 0).2.2.drop s.length) = false →
      (readLineLim lim src s).1 = Except.error ErrKind.invalidData ∧
        (readLineLim lim src s).2.2 = s) := by
  have hb := readUntil_buf 10 lim src s 0
  rcases h0 : readUntil 10 lim src [] 0 with ⟨ret, src2, app⟩
  rw [h0] at hb
  simp only at hb
  have happ : (readUntil 10 lim src s 0).2.2.drop s.length = app := by
    rw [hb]
    simp [List.drop_left]
  by_cases hv : validUTF8 app = true
  · have hc := readLineLim_commit lim src s (by rw [happ]; exact hv)
    rw [hc, hb]
    refine ⟨validUTF8_append hs hv, Or.inr ⟨app, rfl, hv⟩, ?_⟩
    intro n _ hvf
    simp only [List.drop_left] at hvf
    rw [hv] at hvf
    simp at hvf
  · have hv2 : validUTF8 app = false := by
      cases hx : validUTF8 app
      · rfl
      · exact absurd hx hv
    rcases ret with e | n
    · have hc := readLineLim_invalid_err lim src s e (by rw [hb]) (by rw [happ]; exact hv2)
      rw [hc]
      refine ⟨hs, Or.inl rfl, ?_⟩
      intro n hok _
      rw [hb] at hok
      simp at hok
    · have hc := readLineLim_invalid_ok lim src s n (by rw [hb]) (by rw [happ]; exact hv2)
      rw [hc]
      exact ⟨hs, Or.inl rfl, fun _ _ _ => ⟨rfl, rfl⟩⟩

theorem C5_witness :
    validUTF8 [0x61] = true ∧
    (validUTF8 (readLineLim 5 [Resp.chunk [0xFF, 10]] [0x61]).2.2 = true ∧
      ((readLineLim 5 [Resp.chunk [0xFF, 10]] [0x61]).2.2 = [0x61] ∨
        ∃ app, (readLineLim 5 [Resp.chunk [0xFF, 10]] [0x61]).2.2 = [0x61] ++ app ∧
          validUTF8 app = true) ∧
      (∀ n, (readUntil 10 5 [Resp.chunk [0xFF, 10]] [0x61] 0).1 = Except.ok n →
        validUTF8 ((readUntil 10 5 [Resp.chunk [0xFF, 10]] [0x61] 0).2.2.drop
          (List.length [0x61])) = false →
        (readLineLim 5 [Resp.chunk [0xFF, 10]] [0x61]).1 = Except.error ErrKind.invalidData ∧
          (readLineLim 5 [Resp.chunk [0xFF, 10]] [0x61]).2.2 = [0x61])) :=
  ⟨rfl, C5_text_buffer_always_valid 5 [Resp.chunk [0xFF, 10]] [0x61] rfl⟩

/-- C10: an error item does not end either iterator: a step yields `none`
exactly when its scan returns `Ok 0`, never because an earlier step
failed; and when the size-exceeded failure fires in the first buffered
chunk, the failing step leaves the source unchanged, so running the step
again on the returned source yields the same error again, indefinitely —
shown here for both `Split` and `Lines` steps. -/
theorem C10_error_items_do_not_end_iteration :
    (∀ (d lim : Nat) (src : Source),
      (splitNext d lim src).1 = none ↔ (readUntil d lim src [] 0).1 = Except.ok 0) ∧
    (∀ (lim : Nat) (src : Source),
      (linesNext lim src).1 = none ↔ (readUntil 10 lim src [] 0).1 = Except.ok 0) ∧
    (∀ (d lim : Nat) (bs : List Nat) (rest : Source) (i : Nat),
      memchr d bs = some i → lim < i + 1 →
      splitNext d lim (Resp.chunk bs :: rest)
        = (some (Except.error ErrKind.notFound), Resp.chunk bs :: rest) ∧
      splitNext d lim ((splitNext d lim (Resp.chunk bs :: rest)).2)
        = (some (Except.error ErrKind.notFound), Resp.chunk bs :: rest)) ∧
    (∀ (lim : Nat) (bs : List Nat) (rest : Source) (i : Nat),
      memchr 10 bs = some i → lim < i + 1 →
      linesNext lim (Resp.chunk bs :: rest)
        = (some (Except.error ErrKind.notFound), Resp.chunk bs :: rest) ∧
      linesNext lim ((linesNext lim (Resp.chunk bs :: rest)).2)
        = (some (Except.error ErrKind.notFound), Resp.chunk bs :: rest)) := by
  refine ⟨?_, ?_, ?_, ?_⟩
  · intro d lim src
    rcases h : readUntil d lim src [] 0 with ⟨ret, s2, b⟩
    unfold splitNext
    rw [h]
    rcases ret with e | (_ | n) <;> simp
  · intro lim src
    rcases h : readUntil 10 lim src [] 0 with ⟨ret, s2, app⟩
    unfold linesNext readLineLim
    rw [h]
    simp only [List.length_nil, List.drop_zero]
    rcases ret with e | (_ | n)
    · by_cases hv : validUTF8 app = true
      · simp [hv]
      · simp [hv]
    · have hl := readUntil_len 10 lim src [] 0 0 (by rw [h])
      rw [h] at hl
      simp at hl
      subst hl
      simp [validUTF8, utf8Run]
    · by_cases hv : validUTF8 app = true
      · simp [hv]
      · simp [hv]
  · intro d lim bs rest i hm hgt
    have hse := readUntil_sizeExceeded d lim bs rest [] 0 i hm (by omega)
    have h1 : splitNext d lim (Resp.chunk bs :: rest)
        = (some (Except.error ErrKind.notFound), Resp.chunk bs :: rest) := by
      unfold splitNext
      rw [hse]
    refine ⟨h1, ?_⟩
    rw [h1]
    exact h1
  · intro lim bs rest i hm hgt
    have hse := readUntil_sizeExceeded 10 lim bs rest [] 0 i hm (by omega)
    have hl : readLineLim lim (Resp.chunk bs :: rest) []
        = (Except.error ErrKind.notFound, Resp.chunk bs :: rest, []) := by
      unfold readLineLim
      rw [hse]
      simp [validUTF8, utf8Run]
    have h1 : linesNext lim (Resp.chunk bs :: rest)
        = (some (Except.error ErrKind.notFound), Resp.chunk bs :: rest) := by
      unfold linesNext
      rw [hl]
    refine ⟨h1, ?_⟩
    rw [h1]
    exact h1

theorem C10_witness :
    memchr 59 [59] = some 0 ∧ 0 < 0 + 1 ∧
    splitNext 59 0 [Resp.chunk [59]]
      = (some (Except.error ErrKind.notFound), [Resp.chunk [59]]) :=
  ⟨rfl, by omega,
    (C10_error_items_do_not_end_iteration.2.2.1 59 0 [59] [] 0 rfl (by omega)).1⟩

/-- C6 counterexample to the claim as stated: the two-chunk source with
content `[0xC2, 0xA9, 1, 10]` (valid UTF-8: a two-byte character, then
two ASCII bytes) with max 3. Step 1: both iterators fail with the
size-exceeded error and both leave the source holding the second chunk —
but the failed scan has already consumed the chunk `[0xC2]`, half of a
two-byte character. Step 2, on the very source state both step 1 calls
returned: the byte-record iterator succeeds with `[0xA9, 1]` while the
text-line iterator fails with `InvalidData`, so the success/error
outcomes differ although the source content was valid UTF-8. -/
theorem C6_counterexample :
    validUTF8 [[0xC2], [0xA9, 1, 10]].flatten = true ∧
    splitNext 10 3 [Resp.chunk [0xC2], Resp.chunk [0xA9, 1, 10]]
      = (some (Except.error ErrKind.notFound), [Resp.chunk [0xA9, 1, 10]]) ∧
    linesNext 3 [Resp.chunk [0xC2], Resp.chunk [0xA9, 1, 10]]
      = (some (Except.error ErrKind.notFound), [Resp.chunk [0xA9, 1, 10]]) ∧
    splitNext 10 3 [Resp.chunk [0xA9, 1, 10]] = (some (Except.ok [0xA9, 1]), []) ∧
    linesNext 3 [Resp.chunk [0xA9, 1, 10]] = (some (Except.error ErrKind.invalidData), []) ∧
    (splitNext 10 3 [Resp.chunk [0xA9, 1, 10]]).1 ≠ (linesNext 3 [Resp.chunk [0xA9, 1, 10]]).1 :=
  ⟨rfl, rfl, rfl, rfl, rfl, fun hc => Except.noConfusion (Option.some.inj hc)⟩

/-- C6 (amended): for a source delivered as a single buffered chunk whose
content is valid UTF-8, each `Lines` step corresponds to the `Split` step
with delimiter `'\n'` and the same max: both advance the source to the
same state, that state is again a single valid-UTF-8 chunk (or empty), and
the two items agree — both `none`, both the same error, or both successes
whose payloads are the raw scanned bytes with, respectively, one trailing
delimiter stripped (`Split`) and one trailing terminator plus an optional
carriage return stripped (`Lines`). (With several chunks the claimed
equivalence fails: a size-exceeded failure can consume a partial
multi-byte character, after which a byte-mode step succeeds while the
text-mode step fails with `InvalidData`.) -/
theorem C6_lines_refine_split_single_chunk (lim : Nat) (bs : List Nat)
    (h : validUTF8 bs = true) :
    (splitNext 10 lim [Resp.chunk bs]).2 = (linesNext lim [Resp.chunk bs]).2 ∧
    (∃ bs2, validUTF8 bs2 = true ∧
      (splitNext 10 lim [Resp.chunk bs]).2
        = (if bs2.isEmpty then ([] : Source) else [Resp.chunk bs2])) ∧
    (((splitNext 10 lim [Resp.chunk bs]).1 = none ∧
        (linesNext lim [Resp.chunk bs]).1 = none) ∨
     (∃ e, (splitNext 10 lim [Resp.chunk bs]).1 = some (Except.error e) ∧
        (linesNext lim [Resp.chunk bs]).1 = some (Except.error e)) ∨
     ((splitNext 10 lim [Resp.chunk bs]).1
        = some (Except.ok (stripDelim 10 (readUntil 10 lim [Resp.chunk bs] [] 0).2.2)) ∧
      (linesNext lim [Resp.chunk bs]).1
        = some (Except.ok (stripLine (readUntil 10 lim [Resp.chunk bs] [] 0).2.2)))) := by
  rcases hm : memchr 10 bs with _ | i
  · by_cases hbe : bs = []
    · subst hbe
      exact ⟨rfl, ⟨[], rfl, rfl⟩, Or.inl ⟨rfl, rfl⟩⟩
    · have hne : ∀ c ∈ [bs], c ≠ ([] : List Nat) := by
        intro c hc
        simp at hc
        subst hc
        exact hbe
      have hnd : 10 ∉ [bs].flatten := by
        simp
        exact memchr_eq_none.mp hm
      have hru0 := readUntil_noDelim 10 lim [bs] [] 0 hne hnd
      have hru : readUntil 10 lim [Resp.chunk bs] [] 0 = (Except.ok bs.length, [], bs) := by
        simpa using hru0
      obtain ⟨n, hn⟩ : ∃ n, bs.length = n + 1 := by
        rcases bs with _ | ⟨b0, tl⟩
        · exact absurd rfl hbe
        · exact ⟨tl.length, by simp⟩
      rw [hn] at hru
      have hs1 : splitNext 10 lim [Resp.chunk bs] = (some (Except.ok (stripDelim 10 bs)), []) := by
        unfold splitNext
        rw [hru]
      have hl1 : readLineLim lim [Resp.chunk bs] [] = (Except.ok (n + 1), [], bs) := by
        unfold readLineLim
        rw [hru]
        simp [h]
      have hs2 : linesNext lim [Resp.chunk bs] = (some (Except.ok (stripLine bs)), []) := by
        unfold linesNext
        rw [hl1]
      rw [hs1, hs2]
      refine ⟨rfl, ⟨[], rfl, rfl⟩, Or.inr (Or.inr ⟨?_, ?_⟩)⟩
      · rw [hru]
      · rw [hru]
  · obtain ⟨hlen, htake⟩ := memchr_some_decomp hm
    have hdecomp : bs = bs.take i ++ 10 :: bs.drop (i + 1) := by
      conv_lhs => rw [← List.take_append_drop (i + 1) bs]
      rw [htake, List.append_assoc, List.singleton_append]
    have hv2 : validUTF8 (bs.take i ++ 10 :: bs.drop (i + 1)) = true := by
      rw [← hdecomp]
      exact h
    have hsplit := validUTF8_split_ascii (by omega) hv2
    by_cases hgt : lim < 0 + i + 1
    · have hse := readUntil_sizeExceeded 10 lim bs [] [] 0 i hm hgt
      have hs1 : splitNext 10 lim [Resp.chunk bs]
          = (some (Except.error ErrKind.notFound), [Resp.chunk bs]) := by
        unfold splitNext
        rw [hse]
      have hl1 : readLineLim lim [Resp.chunk bs] []
          = (Except.error ErrKind.notFound, [Resp.chunk bs], []) := by
        unfold readLineLim
        rw [hse]
        simp [validUTF8, utf8Run]
      have hs2 : linesNext lim [Resp.chunk bs]
          = (some (Except.error ErrKind.notFound), [Resp.chunk bs]) := by
        unfold linesNext
        rw [hl1]
      rw [hs1, hs2]
      have hbs : bs ≠ [] := by
        intro hb
        rw [hb] at hm
        simp [memchr] at hm
      refine ⟨rfl, ⟨bs, h, ?_⟩, Or.inr (Or.inl ⟨ErrKind.notFound, rfl, rfl⟩)⟩
      simp [List.isEmpty_iff, hbs]
    · have hle : 0 + i + 1 ≤ lim := by omega
      have hf := readUntil_found 10 lim bs [] [] 0 i hm hle
      simp only [Nat.zero_add, List.nil_append] at hf
      have hvapp : validUTF8 (bs.take (i + 1)) = true := by
        rw [htake]
        exact hsplit.1
      have hs1 : splitNext 10 lim [Resp.chunk bs]
          = (some (Except.ok (stripDelim 10 (bs.take (i + 1)))),
             if (bs.drop (i + 1)).isEmpty then [] else [Resp.chunk (bs.drop (i + 1))]) := by
        unfold splitNext
        rw [hf]
      have hl1 : readLineLim lim [Resp.chunk bs] []
          = (Except.ok (i + 1),
             (if (bs.drop (i + 1)).isEmpty then [] else [Resp.chunk (bs.drop (i + 1))]),
             bs.take (i + 1)) := by
        unfold readLineLim
        rw [hf]
        simp [hvapp]
      have hs2 : linesNext lim [Resp.chunk bs]
          = (some (Except.ok (stripLine (bs.take (i + 1)))),
             if (bs.drop (i + 1)).isEmpty then [] else [Resp.chunk (bs.drop (i + 1))]) := by
        unfold linesNext
        rw [hl1]
      rw [hs1, hs2]
      refine ⟨rfl, ⟨bs.drop (i + 1), hsplit.2, rfl⟩, Or.inr (Or.inr ⟨?_, ?_⟩)⟩
      · rw [hf]
      · rw [hf]

theorem C6_witness :
    validUTF8 [0x61, 13, 10, 0x62] = true ∧
    ((splitNext 10 5 [Resp.chunk [0x61, 13, 10, 0x62]]).2
        = (linesNext 5 [Resp.chunk [0x61, 13, 10, 0x62]]).2 ∧
     (∃ bs2, validUTF8 bs2 = true ∧
       (splitNext 10 5 [Resp.chunk [0x61, 13, 10, 0x62]]).2
         = (if bs2.isEmpty then ([] : Source) else [Resp.chunk bs2])) ∧
     (((splitNext 10 5 [Resp.chunk [0x61, 13, 10, 0x62]]).1 = none ∧
         (linesNext 5 [Resp.chunk [0x61, 13, 10, 0x62]]).1 = none) ∨
      (∃ e, (splitNext 10 5 [Resp.chunk [0x61, 13, 10, 0x62]]).1 = some (Except.error e) ∧
         (linesNext 5 [Resp.chunk [0x61, 13, 10, 0x62]]).1 = some (Except.error e)) ∨
      ((splitNext 10 5 [Resp.chunk [0x61, 13, 10, 0x62]]).1
         = some (Except.ok (stripDelim 10
             (readUntil 10 5 [Resp.chunk [0x61, 13, 10, 0x62]] [] 0).2.2)) ∧
       (linesNext 5 [Resp.chunk [0x61, 13, 10, 0x62]]).1
         = some (Except.ok (stripLine
             (readUntil 10 5 [Resp.chunk [0x61, 13, 10, 0x62]] [] 0).2.2))))) :=
  ⟨rfl, C6_lines_refine_split_single_chunk 5 [0x61, 13, 10, 0x62] rfl⟩
